import Mathlib

/-!
# Verification of the aexp-benefits-poc content pipeline

A shallow embedding of the content-acquisition and retrieval pipeline of the
`aexp-benefits-poc` repository, together with theorems settling the frozen
claims about it.

Embedded components (source file → Lean definitions):

* `src/lib/scraper.ts` — `normalizeUrl` (over a model of the platform WHATWG
  `URL` parser restricted to `scheme://host[/path][?search][#hash]` inputs),
  and the BFS crawl loop `crawlBenefitsPages` as a fuel-indexed transition
  function over an explicit crawl state, with the external page fetch and
  link discovery given as oracle functions.
* `src/lib/chunking.ts` — `normalizeText`, `splitIntoWords`, `createChunks`,
  `isSubstantialChunk`, `extractCategory`, `chunkPage`, working on `List Char`
  at the core with `String` wrappers at the boundary.
* `src/lib/embeddings.ts` — `validateEmbedding`, `cosineSimilarity` over `ℝ`
  (IEEE doubles are modelled as exact reals; `NaN`/`Infinity` do not arise in
  the real-number model, so the finiteness check of `validateEmbedding`
  reduces to the dimension check).
* `src/lib/search.ts` — `searchChunks` (split into the pure post-embedding
  ranking `searchAfterEmbed` plus an oracle for the embedding service),
  `calculateAverageSearchSimilarity`.
* `src/lib/response-generator.ts` — `extractCitations`, `generateResponse`
  with the external generation service as an oracle and an explicit flag
  recording whether it was invoked.
* `src/lib/indexer.ts` — `reindexContent` as a function from the crawl
  outcome, the embedding-service outcome, and a database state to a result
  plus a new database state.
-/

/-! ## List helpers

Small span/takeWhile/dropWhile facts used throughout. -/

theorem List.length_dropWhile_le' {α : Type _} (p : α → Bool) (l : List α) :
    (l.dropWhile p).length ≤ l.length := by
  induction l with
  | nil => simp [List.dropWhile]
  | cons a t ih =>
    simp only [List.dropWhile]
    cases p a
    · simp
    · simp only [List.length_cons]
      omega

theorem spanAppend (p : Char → Bool) (a b : List Char)
    (ha : ∀ c ∈ a, p c = true)
    (hb : ∀ c t, b = c :: t → p c = false) :
    (a ++ b).takeWhile p = a ∧ (a ++ b).dropWhile p = b := by
  induction a with
  | nil =>
    cases b with
    | nil => simp [List.takeWhile, List.dropWhile]
    | cons c t =>
      have := hb c t rfl
      simp [List.takeWhile, List.dropWhile, this]
  | cons x xs ih =>
    have hx : p x = true := ha x (List.mem_cons_self x xs)
    have := ih (fun c hc => ha c (List.mem_cons_of_mem x hc))
    simp [List.takeWhile, List.dropWhile, hx, this.1, this.2]

/-! ## URL normalizer (`src/lib/scraper.ts`, `normalizeUrl`)

The source delegates parsing to the platform `URL` class (WHATWG URL).  We
model the fragment of that parser that the crawler's URLs exercise: absolute
URLs of the shape `scheme://host[/path][?search][#hash]`.  Strings not of
this shape are treated as unparsable, matching the `catch` branch of the
source, which returns the input unchanged.  Percent-encoding, case
normalization, default ports, userinfo, and special-scheme shorthand
(`https:foo`) are outside the model; no claim depends on them. -/

def isSchemeChar (c : Char) : Bool :=
  c.isAlpha || c.isDigit || c = '+' || c = '-' || c = '.'

/-- Characters that may occur in the host component (the WHATWG host ends at
the first `/`, `?` or `#`). -/
def isHostChar (c : Char) : Bool :=
  !(c = '/' || c = '?' || c = '#')

/-- Characters that may occur in the path component (the path ends at the
first `?` or `#`). -/
def isPathChar (c : Char) : Bool :=
  !(c = '?' || c = '#')

structure UrlObj where
  scheme : List Char
  host : List Char
  pathname : List Char
  search : List Char
  hash : List Char
  deriving Repr, DecidableEq

/-- Model of `new URL(url)` on `scheme://host[/path][?search][#hash]`
inputs; `none` models the constructor throwing. -/
def parseUrl (cs : List Char) : Option UrlObj :=
  let scheme := cs.takeWhile (fun c => c ≠ ':')
  match cs.dropWhile (fun c => c ≠ ':') with
  | ':' :: '/' :: '/' :: rest =>
    if scheme.isEmpty || !scheme.all isSchemeChar then none
    else
      let host := rest.takeWhile isHostChar
      let tail := rest.dropWhile isHostChar
      if host.isEmpty then none
      else
        let path := tail.takeWhile isPathChar
        let tail2 := tail.dropWhile isPathChar
        some ⟨scheme, host, path, tail2.takeWhile (fun c => c ≠ '#'),
              tail2.dropWhile (fun c => c ≠ '#')⟩
  | _ => none

/-- Model of `urlObj.toString()`: a URL with an empty path serializes with
the root slash (`https://h` prints as `https://h/`), matching WHATWG
serialization for special schemes. -/
def serializeUrl (u : UrlObj) : List Char :=
  u.scheme ++ (':' :: '/' :: '/' :: u.host) ++
    (if u.pathname.isEmpty then ['/'] else u.pathname) ++ u.search ++ u.hash

/-- `if (normalized.endsWith('/')) normalized = normalized.slice(0, -1)`. -/
def stripTrailingSlash (cs : List Char) : List Char :=
  if cs.getLast? = some '/' then cs.dropLast else cs

/-- `normalizeUrl` from `src/lib/scraper.ts`: clear the fragment and the
query, serialize, and strip one trailing slash; return the input unchanged
when parsing throws. -/
def normalizeUrl (s : String) : String :=
  match parseUrl s.data with
  | none => s
  | some u =>
    ⟨stripTrailingSlash (serializeUrl { u with search := [], hash := [] })⟩

/-! ## Chunker (`src/lib/chunking.ts`)

The chunker works word-wise; we embed its text processing on `List Char`
(with `String` wrappers at the `chunkPage` boundary), where `Char
.isWhitespace` stands for the JavaScript `\s` class.  The unused
`extractCategoryKeywords` computation of the source (its result is never
read by `chunkPage`) is not modelled. -/

def MAX_CHUNK_WORDS : Nat := 250

def CHUNK_OVERLAP_WORDS : Nat := 75

/-- Character scan behind `splitIntoWords`: `acc` holds the reversed
prefix of the word currently being read. -/
def wordsOfGo (acc : List Char) : List Char → List (List Char)
  | [] => if acc.isEmpty then [] else [acc.reverse]
  | c :: rest =>
    if c.isWhitespace then
      if acc.isEmpty then wordsOfGo [] rest else acc.reverse :: wordsOfGo [] rest
    else wordsOfGo (c :: acc) rest

/-- `splitIntoWords`: `text.split(/\s+/).filter(w => w.length > 0)` — the
maximal whitespace-free runs of the text, in order. -/
def wordsOf (cs : List Char) : List (List Char) :=
  wordsOfGo [] cs

/-- `words.join(' ')` (`Array.prototype.join` with a single-space
separator). -/
def joinWords : List (List Char) → List Char
  | [] => []
  | [w] => w
  | w :: ws => w ++ ' ' :: joinWords ws

/-- Character scan behind the whitespace collapse: `prevWs` records
whether the previous character was whitespace (so a run emits a single
space). -/
def collapseWhitespaceGo (prevWs : Bool) : List Char → List Char
  | [] => []
  | c :: rest =>
    if c.isWhitespace then
      if prevWs then collapseWhitespaceGo true rest
      else ' ' :: collapseWhitespaceGo true rest
    else c :: collapseWhitespaceGo false rest

/-- First `replace` of `normalizeText`: collapse every maximal whitespace
run into a single space.  (The source's second replace, of `\n+`, is a
no-op after this one since `\n` is whitespace.) -/
def collapseWhitespace (cs : List Char) : List Char :=
  collapseWhitespaceGo false cs

/-- `String.prototype.trim`. -/
def trimChars (cs : List Char) : List Char :=
  ((cs.dropWhile (·.isWhitespace)).reverse.dropWhile (·.isWhitespace)).reverse

/-- `normalizeText` (whitespace collapse, then trim), for string input. -/
def normalizeText (cs : List Char) : List Char :=
  trimChars (collapseWhitespace cs)

/-- The loop of `createChunks`: starting at word index `i`, emit
`words.slice(i, i + maxWords).join(' ')` and advance by `stride`
(`maxWords - overlapWords` at the call site).  `fuel` bounds the number
of remaining iterations; any `fuel ≥ words.length - i` is exact when the
stride is positive.  The source loop diverges when the stride is zero;
the model then stops at fuel exhaustion — an unreachable configuration,
as the only call site uses stride `250 - 75`. -/
def createChunksGo (words : List (List Char)) (maxWords stride : Nat) :
    Nat → Nat → List (List Char)
  | 0, _ => []
  | fuel + 1, i =>
    if i < words.length ∧ 0 < stride then
      joinWords ((words.drop i).take maxWords) ::
        createChunksGo words maxWords stride fuel (i + stride)
    else []

/-- `createChunks(text, maxWords, overlapWords)`. -/
def createChunks (text : List Char) (maxWords overlapWords : Nat) : List (List Char) :=
  createChunksGo (wordsOf text) maxWords (maxWords - overlapWords) (wordsOf text).length 0

/-- `isSubstantialChunk`: at least 20 words. -/
def isSubstantialChunk (chunk : List Char) : Bool :=
  decide (20 ≤ (wordsOf chunk).length)

/-- The segment of the URL captured by `/\/benefits\/([^/?]+)/`: scan for
the literal `/benefits/` and take the following non-empty run of
characters other than `/` and `?`; an empty run does not match (`+`
requires one character) and the scan resumes one position later, like a
regex engine advancing its start position. -/
def extractCategoryGo (cs : List Char) : Option (List Char) :=
  match cs with
  | [] => none
  | c :: rest =>
    if (c :: rest).take 10 = "/benefits/".data then
      let seg := (cs.drop 10).takeWhile (fun c => !(c = '/' || c = '?'))
      if seg.isEmpty then extractCategoryGo rest else some seg
    else extractCategoryGo rest

/-- `extractCategory`: first match of `/\/benefits\/([^/?]+)/`, default
`'general'`. -/
def extractCategory (url : String) : String :=
  match extractCategoryGo url.data with
  | some seg => ⟨seg⟩
  | none => "general"

structure ScrapedPage where
  url : String
  title : String
  content : String
  headings : List String
  deriving Repr, DecidableEq

structure TextChunk where
  text : String
  category : String
  sourceUrl : String
  deriving Repr, DecidableEq

structure ChunkedContent where
  pageUrl : String
  pageTitle : String
  chunks : List TextChunk
  deriving Repr, DecidableEq

/-- `chunkPage` from `src/lib/chunking.ts`. -/
def chunkPage (page : ScrapedPage) : ChunkedContent :=
  let category := extractCategory page.url
  let normalizedContent := normalizeText page.content.data
  let rawChunks := createChunks normalizedContent MAX_CHUNK_WORDS CHUNK_OVERLAP_WORDS
  { pageUrl := page.url
    pageTitle := page.title
    chunks := (rawChunks.filter isSubstantialChunk).map
      (fun t => { text := ⟨t⟩, category := category, sourceUrl := page.url }) }

/-- `chunkPages`. -/
def chunkPages (pages : List ScrapedPage) : List ChunkedContent :=
  pages.map chunkPage

/-! ## Embeddings (`src/lib/embeddings.ts`)

Similarity arithmetic is over `ℝ`: IEEE doubles are modelled as exact
reals.  `NaN`/`Infinity` have no counterpart in the model, so the
`isFinite` clause of `validateEmbedding` is identically true, and the
`Array.isArray` guard is enforced by typing. -/

def EMBEDDING_DIMENSIONS : Nat := 1536

/-- `validateEmbedding`: the dimension check (the finiteness check is
identically true in the real-number model). -/
def validateEmbedding (embedding : List ℝ) : Bool :=
  embedding.length = EMBEDDING_DIMENSIONS

open Classical in
/-- `cosineSimilarity`.  On a length mismatch the source throws; its sole
caller (`searchChunks`) catches any throw from the per-chunk similarity
computation and keeps similarity `0`, so the model folds that case to
`0` directly. -/
noncomputable def cosineSimilarity (a b : List ℝ) : ℝ :=
  if a.length ≠ b.length then 0
  else
    let dotProduct := (List.zipWith (· * ·) a b).sum
    let magnitudeA := Real.sqrt ((a.map fun x => x * x).sum)
    let magnitudeB := Real.sqrt ((b.map fun x => x * x).sum)
    if magnitudeA = 0 ∨ magnitudeB = 0 then 0
    else dotProduct / (magnitudeA * magnitudeB)

/-! ## Vector search (`src/lib/search.ts`)

`searchChunks` is split at its effect boundaries: the embedding service is
an oracle `String → List ℝ`, and the chunk table (each row joined with its
page title, as the `include: { page: true }` does) is a value.  The
`embedding` column is modelled as `Option (List ℝ)` directly; the
`stringToEmbedding` JSON round-trip is the identity in the model (a parse
failure behaves like an invalid embedding: similarity `0`). -/

structure DbChunkRow where
  id : Nat
  text : String
  category : String
  sourceUrl : String
  pageTitle : String
  embedding : Option (List ℝ)

structure SearchResult where
  id : Nat
  text : String
  category : String
  sourceUrl : String
  similarity : ℝ
  pageTitle : String

/-- The `prisma.chunk.findMany({ where: { embedding: { not: null } } })`
fetch: rows with an embedding present. -/
def fetchEmbedded (chunks : List DbChunkRow) : List DbChunkRow :=
  chunks.filter (fun r => r.embedding.isSome)

/-- Similarity of one fetched row against the query embedding: `0` unless
the stored embedding validates. -/
noncomputable def chunkSimilarity (queryEmbedding : List ℝ) (row : DbChunkRow) : ℝ :=
  match row.embedding with
  | some e => if validateEmbedding e then cosineSimilarity queryEmbedding e else 0
  | none => 0

noncomputable def resultsWithSimilarity (queryEmbedding : List ℝ)
    (chunks : List DbChunkRow) : List SearchResult :=
  (fetchEmbedded chunks).map fun r =>
    { id := r.id, text := r.text, category := r.category, sourceUrl := r.sourceUrl
      similarity := chunkSimilarity queryEmbedding r, pageTitle := r.pageTitle }

open Classical in
/-- `sort((a, b) => b.similarity - a.similarity)`: descending by
similarity. -/
noncomputable def sortBySimilarityDesc (l : List SearchResult) : List SearchResult :=
  List.insertionSort (fun a b => b.similarity ≤ a.similarity) l

/-- `sortedResults.slice(0, topK)`. -/
noncomputable def topResults (queryEmbedding : List ℝ) (chunks : List DbChunkRow)
    (topK : Nat) : List SearchResult :=
  (sortBySimilarityDesc (resultsWithSimilarity queryEmbedding chunks)).take topK

/-- The degenerate-result test of `searchChunks`:
`searchResults.length === 0 || searchResults.every(r => r.similarity === 0)`. -/
def searchFallback (queryEmbedding : List ℝ) (chunks : List DbChunkRow)
    (topK : Nat) : Prop :=
  topResults queryEmbedding chunks topK = [] ∨
    ∀ r ∈ topResults queryEmbedding chunks topK, r.similarity = 0

/-- The fallback branch: every fetched chunk at the fixed placeholder
similarity `0.5`, truncated to `topK`. -/
noncomputable def fallbackResults (chunks : List DbChunkRow) (topK : Nat) :
    List SearchResult :=
  ((fetchEmbedded chunks).map fun r =>
    { id := r.id, text := r.text, category := r.category, sourceUrl := r.sourceUrl
      similarity := (0.5 : ℝ), pageTitle := r.pageTitle }).take topK

open Classical in
/-- The ranking part of `searchChunks`, from the validated query embedding
on. -/
noncomputable def searchAfterEmbed (queryEmbedding : List ℝ) (chunks : List DbChunkRow)
    (topK : Nat) : List SearchResult :=
  if searchFallback queryEmbedding chunks topK then fallbackResults chunks topK
  else topResults queryEmbedding chunks topK

open Classical in
/-- `calculateAverageSearchSimilarity`. -/
noncomputable def calculateAverageSearchSimilarity (results : List SearchResult) : ℝ :=
  if results.length = 0 then 0
  else (results.foldl (fun sum r => sum + r.similarity) 0) / results.length

/-- Outcome of one `searchChunks` call: the returned (or thrown) value plus
observer flags recording whether the embedding service was invoked and
whether the chunk table was read. -/
structure SearchTrace where
  outcome : Except String (List SearchResult)
  embedCalled : Bool
  corpusRead : Bool

/-- `searchChunks`.  The guard `!query || query.trim().length === 0`
collapses to the trim test (an empty string trims to itself). -/
noncomputable def searchChunks (embedSvc : String → List ℝ) (chunks : List DbChunkRow)
    (query : String) (topK : Nat) : SearchTrace :=
  if trimChars query.data = [] then { outcome := .ok [], embedCalled := false, corpusRead := false }
  else
    let queryEmbedding := embedSvc query
    if validateEmbedding queryEmbedding then
      { outcome := .ok (searchAfterEmbed queryEmbedding chunks topK)
        embedCalled := true, corpusRead := true }
    else
      { outcome := .error "Invalid query embedding generated"
        embedCalled := true, corpusRead := false }

/-! ## Response/citation generator (`src/lib/response-generator.ts`)

The OpenAI chat call is an oracle `String → String` from the user-message
content to the returned text; `calledExternal` records whether the oracle
was consulted.  The scan for `/\[(\d+)\]/g` is embedded as a left-to-right
character scan that tracks a pending `[digits` prefix, which matches the
non-overlapping leftmost-match semantics of `RegExp.exec` for this
pattern. -/

structure Citation where
  number : Nat
  text : String
  url : String
  category : String
  deriving Repr, DecidableEq

/-- `parseInt` on a non-empty digit run. -/
def digitsToNat (ds : List Char) : Nat :=
  ds.foldl (fun a c => 10 * a + (c.toNat - '0'.toNat)) 0

/-- All numbers matched by `/\[(\d+)\]/g`, in match order.  `pending` is
`some ds` when the scanner sits right after `[` followed by the digit run
`ds`. -/
def scanCitationNums (pending : Option (List Char)) : List Char → List Nat
  | [] => []
  | c :: rest =>
    match pending with
    | none =>
      if c = '[' then scanCitationNums (some []) rest
      else scanCitationNums none rest
    | some ds =>
      if c.isDigit then scanCitationNums (some (ds ++ [c])) rest
      else if c = ']' && !ds.isEmpty then digitsToNat ds :: scanCitationNums none rest
      else if c = '[' then scanCitationNums (some []) rest
      else scanCitationNums none rest

/-- The `citedNumbers` set of `extractCitations`: first occurrences, in
insertion order (JavaScript `Set` iteration order). -/
def dedupFirstGo (seen : List Nat) : List Nat → List Nat
  | [] => []
  | n :: ns =>
    if n ∈ seen then dedupFirstGo seen ns
    else n :: dedupFirstGo (n :: seen) ns

/-- The body of the mapping loop of `extractCitations`: `num` maps to a
citation iff `num - 1` (as a signed index, so `num = 0` is rejected) is in
range of the supplied results. -/
def toCitation (searchResults : List SearchResult) (num : Nat) : Option Citation :=
  if num = 0 then none
  else
    match searchResults.get? (num - 1) with
    | some result =>
      some { number := num, text := result.pageTitle, url := result.sourceUrl
             category := result.category }
    | none => none

/-- `extractCitations(responseText, searchResults)`: scan, dedupe, map to
in-range results, sort ascending by citation number. -/
def extractCitations (responseText : String) (searchResults : List SearchResult) :
    List Citation :=
  List.insertionSort (fun a b => a.number ≤ b.number)
    ((dedupFirstGo [] (scanCitationNums none responseText.data)).filterMap
      (toCitation searchResults))

def lowConfidenceMessage : String :=
  "I don\x27t have confident information about that question. Please visit the official AmEx benefits website for complete information."

def noResultsMessage : String :=
  "I don\x27t have information about that topic in the AmEx benefits database. Please visit the official benefits website for more details."

/-- The numbered context block built from the search results:
`[i] text\n(Source: title)` joined by blank lines. -/
def formatContextItems (results : List SearchResult) : String :=
  String.intercalate "\n\n" (results.enum.map fun p =>
    "[" ++ toString (p.1 + 1) ++ "] " ++ p.2.text ++ "\n(Source: " ++ p.2.pageTitle ++ ")")

/-- The user-message content passed to the generation service. -/
def buildUserContent (query : String) (results : List SearchResult) : String :=
  "Context:\nBENEFITS DATABASE INFORMATION:\n" ++ formatContextItems results ++
    "\n\nQuestion: " ++ query

structure GeneratedResponse where
  message : String
  citations : List Citation
  confidence : ℝ
  rawResponse : String
  /-- Observer flag: whether the external generation service was called. -/
  calledExternal : Bool

open Classical in
/-- `generateResponse(query, searchResults, confidenceScore)` with the
generation service as oracle `llm`. -/
noncomputable def generateResponse (llm : String → String) (query : String)
    (searchResults : List SearchResult) (confidenceScore : ℝ) : GeneratedResponse :=
  if confidenceScore < (0.2 : ℝ) then
    { message := lowConfidenceMessage, citations := [], confidence := 0
      rawResponse := "Fallback response due to low confidence", calledExternal := false }
  else if searchResults.isEmpty then
    { message := noResultsMessage, citations := [], confidence := 0
      rawResponse := "No search results", calledExternal := false }
  else
    let rawResponse := llm (buildUserContent query searchResults)
    { message := rawResponse
      citations := extractCitations rawResponse searchResults
      confidence := confidenceScore
      rawResponse := rawResponse
      calledExternal := true }

/-! ## Frontier/BFS crawler (`src/lib/scraper.ts`, `crawlBenefitsPages`)

The external effects are oracles: `scrape url` models `scrapePage(url)`
after its retry loop (`some page` on success, `none` after retries are
exhausted or on insufficient content), and `discover url` models the
filtered `discoverLinks` output (the same-domain/path/extension filter of
`shouldCrawlUrl` only restricts which links appear, so it is absorbed
into the oracle).  Wall-clock data (`visitedAt`, politeness delays,
backoff sleeps) and the browser-lifecycle calls are not modelled.  The
loop is fuel-indexed; every claim below is proved for every fuel. -/

structure QueueItem where
  url : String
  depth : Nat
  parentUrl : Option String
  linkText : Option String
  deriving Repr, DecidableEq

structure NavStep where
  url : String
  depth : Nat
  parentUrl : Option String
  linkText : Option String
  scraped : Bool
  deriving Repr, DecidableEq

structure CrawlResult where
  pages : List ScrapedPage
  navigationSteps : List NavStep
  deriving Repr, DecidableEq

structure CrawlState where
  pages : List ScrapedPage
  steps : List NavStep
  visited : List String
  queue : List QueueItem
  deriving Repr, DecidableEq

/-- The link-enqueueing loop: a discovered link is queued only if its
normalized URL is neither visited nor already queued (`linkText` is
truncated to 200 characters).  `queue` plays the role of the mutating
JavaScript array, so later links also see the links pushed before them. -/
def enqueueLinks (links : List (String × String)) (current : QueueItem)
    (visited : List String) (queue : List QueueItem) : List QueueItem :=
  links.foldl
    (fun q link =>
      let normalizedLinkUrl := normalizeUrl link.1
      if visited.contains normalizedLinkUrl ||
          q.any (fun c => normalizeUrl c.url == normalizedLinkUrl) then q
      else
        q ++ [{ url := link.1, depth := current.depth + 1,
                parentUrl := some current.url,
                linkText := some (⟨link.2.data.take 200⟩ : String) }])
    queue

/-- One-loop-at-a-time embedding of the `while (queue.length > 0 &&
pages.length < MAX_PAGES_TO_CRAWL)` BFS loop. -/
def crawlLoop (scrape : String → Option ScrapedPage)
    (discover : String → List (String × String)) (maxPages : Nat) :
    Nat → CrawlState → CrawlState
  | 0, s => s
  | fuel + 1, s =>
    match s.queue with
    | [] => s
    | current :: rest =>
      if s.pages.length < maxPages then
        let normalizedUrl := normalizeUrl current.url
        if s.visited.contains normalizedUrl then
          crawlLoop scrape discover maxPages fuel { s with queue := rest }
        else
          let visited := normalizedUrl :: s.visited
          let scrapedPage := scrape current.url
          let pages := match scrapedPage with
            | some p => s.pages ++ [p]
            | none => s.pages
          let navStep : NavStep :=
            { url := current.url, depth := current.depth,
              parentUrl := current.parentUrl, linkText := current.linkText,
              scraped := scrapedPage.isSome }
          let steps := s.steps ++ [navStep]
          let queue :=
            if pages.length < maxPages then
              enqueueLinks (discover current.url) current visited rest
            else rest
          crawlLoop scrape discover maxPages fuel
            { pages := pages, steps := steps, visited := visited, queue := queue }
      else s

/-- `crawlBenefitsPages`: seed the frontier with the normalized base URL at
depth `0` and run the BFS loop. -/
def crawlBenefitsPages (scrape : String → Option ScrapedPage)
    (discover : String → List (String × String)) (seedUrl : String)
    (maxPages fuel : Nat) : CrawlResult :=
  let startUrl := normalizeUrl seedUrl
  let final := crawlLoop scrape discover maxPages fuel
    { pages := [], steps := [],
      visited := [], queue := [{ url := startUrl, depth := 0, parentUrl := none, linkText := none }] }
  { pages := final.pages, navigationSteps := final.steps }

/-! ## Indexer (`src/lib/indexer.ts`, `reindexContent`)

The durable store is a value of type `Db`; Prisma calls become pure state
updates.  The crawl outcome and the embedding-service outcome
(`generateEmbeddingsBatched`, whose batching internals are collapsed into
one oracle call) are parameters; `Except.error` models a throw.  Record
ids restart at `1` per call and wall-clock fields (`startedAt`,
`completedAt`, `duration`, `visitedAt`) are dropped; no claim reads them.
The admin-log message text is abbreviated. -/

structure DbPage where
  id : Nat
  url : String
  title : String

structure DbChunk where
  pageId : Nat
  text : String
  embedding : List ℝ
  category : String
  sourceUrl : String

structure CrawlSessionRow where
  id : Nat
  status : String
  pagesScraped : Nat

structure AdminLogRow where
  action : String
  status : String
  message : String

structure Db where
  sessions : List CrawlSessionRow
  pages : List DbPage
  chunks : List DbChunk
  navSteps : List (Nat × NavStep)
  logs : List AdminLogRow

structure ReindexStats where
  pagesIndexed : Nat
  chunksCreated : Nat
  embeddingsGenerated : Nat
  crawlSessionId : Nat
  navigationSteps : Nat
  deriving Repr, DecidableEq

def updateSessionStatus (db : Db) (sid : Nat) (status : String) : Db :=
  { db with sessions := db.sessions.map fun s =>
      if s.id = sid then { s with status := status } else s }

def updateSessionPages (db : Db) (sid : Nat) (n : Nat) : Db :=
  { db with sessions := db.sessions.map fun s =>
      if s.id = sid then { s with pagesScraped := n } else s }

def addLog (db : Db) (status message : String) : Db :=
  { db with logs := db.logs ++ [{ action := "reindex", status := status, message := message }] }

/-- `reindexContent`, from `src/lib/indexer.ts`.  Steps 1–10 of the source
in order: create the session; inspect the crawl outcome (a crawl throw
falls to the catch branch: session `failed`, error logged, rethrow); on
zero pages mark the session `failed` and return zero stats; otherwise save
navigation steps, update the page count, chunk, delete the old chunks and
pages, store the new pages, ask the embedding service (a throw again falls
to the catch branch — after the old corpus was already deleted), store the
new chunks (pairing embeddings by global chunk index), mark the session
`completed`, and log success. -/
def reindexContent (crawl : Except String CrawlResult)
    (embedSvc : List String → Except String (List (List ℝ))) (db : Db) :
    Except String ReindexStats × Db :=
  let sid := db.sessions.length + 1
  let db1 : Db :=
    { db with sessions := db.sessions ++ [{ id := sid, status := "in_progress", pagesScraped := 0 }] }
  match crawl with
  | .error e => (.error e, addLog (updateSessionStatus db1 sid "failed") "error" e)
  | .ok crawlResult =>
    if crawlResult.pages.length = 0 then
      (.ok { pagesIndexed := 0, chunksCreated := 0, embeddingsGenerated := 0,
             crawlSessionId := sid, navigationSteps := 0 },
       updateSessionStatus db1 sid "failed")
    else
      let db2 : Db :=
        { db1 with navSteps := db1.navSteps ++ crawlResult.navigationSteps.map (fun st => (sid, st)) }
      let db3 := updateSessionPages db2 sid crawlResult.pages.length
      let chunkedPages := chunkPages crawlResult.pages
      let db4 : Db := { db3 with chunks := [], pages := [] }
      let storedPages := crawlResult.pages.enum.map fun p =>
        { id := p.1 + 1, url := p.2.url, title := p.2.title : DbPage }
      let db5 : Db := { db4 with pages := storedPages }
      let allChunks := (chunkedPages.map (fun cp => cp.chunks)).flatten
      match embedSvc (allChunks.map (fun ch => ch.text)) with
      | .error e => (.error e, addLog (updateSessionStatus db5 sid "failed") "error" e)
      | .ok embeddings =>
        let tagged := ((chunkedPages.enum.map fun p =>
          p.2.chunks.map fun ch => (p.1 + 1, ch)).flatten)
        let newChunks := tagged.enum.map fun q =>
          { pageId := q.2.1, text := q.2.2.text, embedding := embeddings.getD q.1 [],
            category := q.2.2.category, sourceUrl := q.2.2.sourceUrl : DbChunk }
        let db6 : Db := addLog (updateSessionStatus { db5 with chunks := newChunks } sid "completed")
          "success" "reindex completed"
        (.ok { pagesIndexed := crawlResult.pages.length, chunksCreated := newChunks.length,
               embeddingsGenerated := embeddings.length, crawlSessionId := sid,
               navigationSteps := crawlResult.navigationSteps.length }, db6)

/-! ## Verification predicates and spec-side formulas -/

/-- The status of the session row with id `sid` (the first such row, as a
primary-key lookup would find it). -/
def sessionStatus (db : Db) (sid : Nat) : Option String :=
  (db.sessions.find? (fun s => s.id == sid)).map (fun s => s.status)

/-- Chunk count stated by the claim, rendered from its words: zero below
the 20-word minimum, else `ceil(max(W - 75, 0) / 175)`. -/
def claimedChunkCount (W : Nat) : Nat :=
  if W < 20 then 0 else (W - 75 + 174) / 175

/-- Chunk count the code actually produces for a page of `W` normalized
words: one raw window per offset `0, 175, 350, …` below `W`, minus the
final window when it is shorter than 20 words. -/
def amendedChunkCount (W : Nat) : Nat :=
  if 0 < W % 175 ∧ W % 175 < 20 then (W + 174) / 175 - 1 else (W + 174) / 175

/-- Loop invariant of the BFS crawl: navigation steps have pairwise
distinct normalized URLs, every recorded step is marked visited, and both
queued candidates and recorded steps carry parent/depth data consistent
with the steps recorded so far. -/
def CrawlInv (s : CrawlState) : Prop :=
  ((s.steps.map fun st => normalizeUrl st.url).Nodup) ∧
  (∀ st ∈ s.steps, normalizeUrl st.url ∈ s.visited) ∧
  (∀ c ∈ s.queue,
    (c.parentUrl = none → c.depth = 0) ∧
    (∀ p, c.parentUrl = some p →
      ∃ pst ∈ s.steps, pst.url = p ∧ c.depth = pst.depth + 1)) ∧
  (∀ st ∈ s.steps,
    (st.parentUrl = none → st.depth = 0) ∧
    (∀ p, st.parentUrl = some p →
      ∃ pst ∈ s.steps, pst.url = p ∧ st.depth = pst.depth + 1))

/-! ## Concrete inputs used by witnesses and counterexamples -/

/-- `n` words of one character each, space-separated. -/
def repeatWords (n : Nat) : String :=
  ⟨joinWords (List.replicate n ['w'])⟩

def demoPage20 : ScrapedPage :=
  { url := "https://x.com/benefits/health", title := "T", content := repeatWords 20, headings := [] }

/-- Scrape oracle for the crawl witness: every fetch succeeds. -/
def demoScrape : String → Option ScrapedPage :=
  fun url => some { url := url, title := "T", content := "", headings := [] }

/-- Discovery oracle for the crawl witness: the seed links to one benefits
page, which links nowhere. -/
def demoDiscover : String → List (String × String) :=
  fun url =>
    if url = "https://ex.com/benefits" then [("https://ex.com/benefits/health", "Health")]
    else []

/-- A stored corpus predating a re-index. -/
def oldDb : Db :=
  { sessions := []
    pages := [{ id := 1, url := "https://old.example/benefits", title := "Old" }]
    chunks := [{ pageId := 1, text := "old chunk text", embedding := [],
                 category := "general", sourceUrl := "https://old.example/benefits" }]
    navSteps := []
    logs := [] }

def cePage : ScrapedPage :=
  { url := "https://new.example/benefits/health", title := "New",
    content := repeatWords 20, headings := [] }

/-- A crawl outcome with one successfully scraped page. -/
def ceCrawlOk : Except String CrawlResult :=
  .ok { pages := [cePage],
        navigationSteps := [{ url := "https://new.example/benefits/health", depth := 0,
                              parentUrl := none, linkText := none, scraped := true }] }

/-- An embedding service that fails. -/
def ceEmbedErr : List String → Except String (List (List ℝ)) :=
  fun _ => .error "Embedding service unavailable"

/-- A query embedding orthogonal in effect: the all-zero vector (its
magnitude is zero, so every cosine similarity against it is the guarded
`0`). -/
noncomputable def ceVecZero : List ℝ :=
  List.replicate 1536 0

/-- A query embedding whose cosine similarity against `ceVecB` is exactly
`0.5`. -/
noncomputable def ceVecA : List ℝ :=
  2 :: List.replicate 1535 0

/-- A stored chunk embedding of the corpus dimensionality. -/
noncomputable def ceVecB : List ℝ :=
  1 :: 1 :: 1 :: 1 :: List.replicate 1532 0

noncomputable def ceChunkRow : DbChunkRow :=
  { id := 1, text := "chunk text", category := "general",
    sourceUrl := "https://x.com/benefits/health", pageTitle := "Page",
    embedding := some ceVecB }

/-- Search results used by citation witnesses. -/
def citeResults : List SearchResult :=
  [{ id := 1, text := "t1", category := "c1", sourceUrl := "u1", similarity := 0, pageTitle := "p1" },
   { id := 2, text := "t2", category := "c2", sourceUrl := "u2", similarity := 0, pageTitle := "p2" }]

set_option maxRecDepth 40000

/-! ## Theorems -/

theorem foldl_add_similarity (l : List SearchResult) (a : ℝ) :
    l.foldl (fun sum r => sum + r.similarity) a = a + (l.map (fun r => r.similarity)).sum := by
  induction l generalizing a with
  | nil => simp
  | cons x t ih =>
    simp only [List.foldl_cons, List.map_cons, List.sum_cons, ih]
    ring

/-- C8: `calculateAverageSearchSimilarity` returns `0` on the empty result
list, and the arithmetic mean of the similarity values on every non-empty
result list. -/
theorem claim_C8_confidence_mean :
    calculateAverageSearchSimilarity [] = 0 ∧
    ∀ results : List SearchResult, results ≠ [] →
      calculateAverageSearchSimilarity results =
        (results.map (fun r => r.similarity)).sum / results.length := by
  constructor
  · simp [calculateAverageSearchSimilarity]
  · intro results h
    have hlen : results.length ≠ 0 := by
      simpa [List.length_eq_zero] using h
    simp [calculateAverageSearchSimilarity, hlen, foldl_add_similarity]

/-- Witness for C8 at a concrete one-element result list. -/
theorem claim_C8_confidence_mean_witness :
    calculateAverageSearchSimilarity citeResults =
      (citeResults.map (fun r => r.similarity)).sum / citeResults.length :=
  claim_C8_confidence_mean.2 citeResults (by simp [citeResults])

/-- C10: on an empty or whitespace-only query, `searchChunks` returns the
empty result list without raising, without calling the embedding service,
and without reading the chunk corpus. -/
theorem claim_C10_empty_query (embedSvc : String → List ℝ) (chunks : List DbChunkRow)
    (query : String) (topK : Nat) (h : trimChars query.data = []) :
    searchChunks embedSvc chunks query topK =
      { outcome := .ok [], embedCalled := false, corpusRead := false } := by
  simp [searchChunks, h]

/-- Witness for C10 at a whitespace-only query. -/
theorem claim_C10_empty_query_witness :
    searchChunks (fun _ => []) [] "   " 5 =
      { outcome := .ok [], embedCalled := false, corpusRead := false } :=
  claim_C10_empty_query (fun _ => []) [] "   " 5 (by decide)

/-- C7: below the fixed confidence floor `0.2`, or on an empty result set,
`generateResponse` returns a fixed refusal message with empty citations and
does not call the external generation service.  (The two branches use two
distinct fixed refusal texts.) -/
theorem claim_C7_refusal_short_circuit (llm : String → String) (query : String)
    (results : List SearchResult) (conf : ℝ)
    (h : conf < (0.2 : ℝ) ∨ results = []) :
    (generateResponse llm query results conf).calledExternal = false ∧
    (generateResponse llm query results conf).citations = [] ∧
    ((generateResponse llm query results conf).message = lowConfidenceMessage ∨
      (generateResponse llm query results conf).message = noResultsMessage) := by
  by_cases hc : conf < (0.2 : ℝ)
  · simp [generateResponse, hc]
  · rcases h with h | h
    · exact absurd h hc
    · subst h
      simp [generateResponse, hc]

/-- Witness for C7 at confidence `0.1`. -/
theorem claim_C7_refusal_short_circuit_witness :
    (generateResponse (fun _ => "") "q" [] (0.1 : ℝ)).calledExternal = false ∧
    (generateResponse (fun _ => "") "q" [] (0.1 : ℝ)).citations = [] ∧
    ((generateResponse (fun _ => "") "q" [] (0.1 : ℝ)).message = lowConfidenceMessage ∨
      (generateResponse (fun _ => "") "q" [] (0.1 : ℝ)).message = noResultsMessage) :=
  claim_C7_refusal_short_circuit (fun _ => "") "q" [] (0.1 : ℝ) (Or.inl (by norm_num))

theorem mem_dedupFirstGo (l : List Nat) : ∀ (seen : List Nat) (n : Nat),
    n ∈ dedupFirstGo seen l → n ∈ l ∧ n ∉ seen := by
  induction l with
  | nil => intro seen n h; simp [dedupFirstGo] at h
  | cons m t ih =>
    intro seen n h
    simp only [dedupFirstGo] at h
    by_cases hm : m ∈ seen
    · rw [if_pos hm] at h
      have := ih seen n h
      exact ⟨List.mem_cons_of_mem m this.1, this.2⟩
    · rw [if_neg hm] at h
      rcases List.mem_cons.mp h with h | h
      · subst h
        exact ⟨List.mem_cons_self n t, hm⟩
      · have := ih (m :: seen) n h
        refine ⟨List.mem_cons_of_mem m this.1, ?_⟩
        intro hs
        exact this.2 (List.mem_cons_of_mem m hs)

theorem nodup_dedupFirstGo (l : List Nat) : ∀ seen : List Nat,
    (dedupFirstGo seen l).Nodup := by
  induction l with
  | nil => intro seen; simp [dedupFirstGo]
  | cons m t ih =>
    intro seen
    simp only [dedupFirstGo]
    by_cases hm : m ∈ seen
    · rw [if_pos hm]; exact ih seen
    · rw [if_neg hm]
      refine List.nodup_cons.mpr ⟨?_, ih (m :: seen)⟩
      intro hmem
      exact (mem_dedupFirstGo t (m :: seen) m hmem).2 (List.mem_cons_self m seen)

theorem toCitation_eq_some (results : List SearchResult) (num : Nat) (c : Citation)
    (h : toCitation results num = some c) :
    ∃ i : Fin results.length, num = i.1 + 1 ∧
      c = { number := num, text := (results.get i).pageTitle,
            url := (results.get i).sourceUrl, category := (results.get i).category } := by
  unfold toCitation at h
  by_cases h0 : num = 0
  · simp [h0] at h
  · rw [if_neg h0] at h
    cases hg : results.get? (num - 1) with
    | none => rw [hg] at h; exact absurd h (by simp)
    | some r =>
      rw [hg] at h
      have hlt : num - 1 < results.length := (List.get?_eq_some.mp hg).1
      refine ⟨⟨num - 1, hlt⟩, ?_, ?_⟩
      · show num = num - 1 + 1
        omega
      have hr : results.get ⟨num - 1, hlt⟩ = r := (List.get?_eq_some.mp hg).2
      simp only [Option.some.injEq] at h
      rw [← h, hr]

theorem toCitation_number (results : List SearchResult) (num : Nat) (c : Citation)
    (h : toCitation results num = some c) : c.number = num := by
  obtain ⟨i, _, hc⟩ := toCitation_eq_some results num c h
  rw [hc]

theorem number_mem_of_filterMap (results : List SearchResult) (t : List Nat) (x : Nat)
    (h : x ∈ (t.filterMap (toCitation results)).map (fun c => c.number)) : x ∈ t := by
  obtain ⟨c, hc, hx⟩ := List.mem_map.mp h
  obtain ⟨n, hn, hcn⟩ := List.mem_filterMap.mp hc
  have hnum := toCitation_number results n c hcn
  rw [← hx, hnum]
  exact hn

theorem nodup_numbers_filterMap (results : List SearchResult) :
    ∀ l : List Nat, l.Nodup →
      ((l.filterMap (toCitation results)).map (fun c => c.number)).Nodup := by
  intro l
  induction l with
  | nil => intro _; simp
  | cons n t ih =>
    intro hnd
    rw [List.filterMap_cons]
    cases hc : toCitation results n with
    | none => exact ih (List.nodup_cons.mp hnd).2
    | some c =>
      rw [List.map_cons]
      refine List.nodup_cons.mpr ⟨?_, ih (List.nodup_cons.mp hnd).2⟩
      intro hmem
      rw [toCitation_number results n c hc] at hmem
      exact (List.nodup_cons.mp hnd).1 (number_mem_of_filterMap results t n hmem)

/-- C6: for every generated answer text and supplied result list, the
citation numbers returned by `extractCitations` are strictly increasing
(hence duplicate-free), lie in `{1..len(results)}`, and every citation
field maps back to the search result at its (1-based) number. -/
theorem claim_C6_citation_validity (responseText : String) (results : List SearchResult) :
    ((extractCitations responseText results).map (fun c => c.number)).Pairwise (· < ·) ∧
    ∀ c ∈ extractCitations responseText results,
      ∃ i : Fin results.length, c.number = i.1 + 1 ∧
        c.text = (results.get i).pageTitle ∧
        c.url = (results.get i).sourceUrl ∧
        c.category = (results.get i).category := by
  haveI : IsTotal Citation (fun a b => a.number ≤ b.number) :=
    ⟨fun a b => Nat.le_total a.number b.number⟩
  haveI : IsTrans Citation (fun a b => a.number ≤ b.number) :=
    ⟨fun _ _ _ hab hbc => le_trans hab hbc⟩
  unfold extractCitations
  set base := (dedupFirstGo [] (scanCitationNums none responseText.data)).filterMap
    (toCitation results) with hbase
  set sorted := List.insertionSort (fun a b : Citation => a.number ≤ b.number) base with hsorteddef
  have hperm : List.Perm sorted base :=
    List.perm_insertionSort (fun a b : Citation => a.number ≤ b.number) base
  constructor
  · have hsorted : sorted.Pairwise (fun a b : Citation => a.number ≤ b.number) :=
      List.sorted_insertionSort (fun a b : Citation => a.number ≤ b.number) base
    have hle : (sorted.map (fun c => c.number)).Pairwise (· ≤ ·) :=
      List.pairwise_map.mpr hsorted
    have hnd : (sorted.map (fun c => c.number)).Nodup := by
      have h1 : (base.map (fun c => c.number)).Nodup :=
        nodup_numbers_filterMap results _
          (nodup_dedupFirstGo (scanCitationNums none responseText.data) [])
      exact ((hperm.map (fun c => c.number)).symm.nodup_iff).mp h1
    exact (hle.and hnd).imp (fun h => lt_of_le_of_ne h.1 h.2)
  · intro c hc
    have hcb : c ∈ base := hperm.mem_iff.mp hc
    obtain ⟨n, _, hcn⟩ := List.mem_filterMap.mp hcb
    obtain ⟨i, hni, hceq⟩ := toCitation_eq_some results n c hcn
    exact ⟨i, by rw [hceq, ← hni], by rw [hceq], by rw [hceq], by rw [hceq]⟩

/-- Witness for C6 on a concrete answer text citing `[2]` and `[1]`. -/
theorem claim_C6_citation_validity_witness :
    ((extractCitations "Answer [2] and [1]." citeResults).map (fun c => c.number)).Pairwise
      (· < ·) ∧
    ∃ i : Fin citeResults.length,
      (Citation.mk 1 "p1" "u1" "c1").number = i.1 + 1 ∧
      (Citation.mk 1 "p1" "u1" "c1").text = (citeResults.get i).pageTitle ∧
      (Citation.mk 1 "p1" "u1" "c1").url = (citeResults.get i).sourceUrl ∧
      (Citation.mk 1 "p1" "u1" "c1").category = (citeResults.get i).category :=
  ⟨(claim_C6_citation_validity "Answer [2] and [1]." citeResults).1,
   (claim_C6_citation_validity "Answer [2] and [1]." citeResults).2
     (Citation.mk 1 "p1" "u1" "c1") (by decide)⟩

theorem enqueueLinks_mem (links : List (String × String)) (current : QueueItem)
    (visited : List String) :
    ∀ (queue : List QueueItem) (c : QueueItem), c ∈ enqueueLinks links current visited queue →
      c ∈ queue ∨ (c.parentUrl = some current.url ∧ c.depth = current.depth + 1) := by
  induction links with
  | nil => intro queue c h; exact Or.inl h
  | cons l ls ih =>
    intro queue c h
    rw [enqueueLinks, List.foldl_cons] at h
    have step := ih _ c h
    rcases step with hq | hp
    · by_cases hcond : visited.contains (normalizeUrl l.1) ||
          queue.any (fun q => normalizeUrl q.url == normalizeUrl l.1)
      · rw [if_pos hcond] at hq
        exact Or.inl hq
      · rw [if_neg hcond] at hq
        rcases List.mem_append.mp hq with hq | hq
        · exact Or.inl hq
        · right
          rcases List.mem_singleton.mp hq with rfl
          exact ⟨rfl, rfl⟩
    · exact Or.inr hp

theorem crawlLoop_inv (scrape : String → Option ScrapedPage)
    (discover : String → List (String × String)) (maxPages : Nat) :
    ∀ (fuel : Nat) (s : CrawlState), CrawlInv s →
      CrawlInv (crawlLoop scrape discover maxPages fuel s) := by
  intro fuel
  induction fuel with
  | zero => intro s h; exact h
  | succ fuel ih =>
    intro s h
    obtain ⟨h1, h2, h3, h4⟩ := h
    rw [crawlLoop]
    cases hq : s.queue with
    | nil => exact ⟨h1, h2, h3, h4⟩
    | cons current rest =>
      dsimp only
      by_cases hbudget : s.pages.length < maxPages
      · rw [if_pos hbudget]
        by_cases hvis : s.visited.contains (normalizeUrl current.url)
        · rw [if_pos hvis]
          refine ih _ ⟨h1, h2, ?_, h4⟩
          intro c hc
          exact h3 c (by rw [hq]; exact List.mem_cons_of_mem current hc)
        · rw [if_neg hvis]
          apply ih
          set nav : NavStep :=
            { url := current.url, depth := current.depth,
              parentUrl := current.parentUrl, linkText := current.linkText,
              scraped := (scrape current.url).isSome } with hnav
          have hcur : current ∈ s.queue := by rw [hq]; exact List.mem_cons_self current rest
          have hstepmem : ∀ st ∈ s.steps, st ∈ s.steps ++ [nav] := fun st hst =>
            List.mem_append_left _ hst
      -- the new step list satisfies the parent/depth invariant
          have h4' : ∀ st ∈ s.steps ++ [nav],
              (st.parentUrl = none → st.depth = 0) ∧
              (∀ p, st.parentUrl = some p →
                ∃ pst ∈ s.steps ++ [nav], pst.url = p ∧ st.depth = pst.depth + 1) := by
            intro st hst
            rcases List.mem_append.mp hst with hst | hst
            · obtain ⟨ha, hb⟩ := h4 st hst
              exact ⟨ha, fun p hp => by
                obtain ⟨pst, hpst, hup⟩ := hb p hp
                exact ⟨pst, hstepmem pst hpst, hup⟩⟩
            · rcases List.mem_singleton.mp hst with rfl
              obtain ⟨ha, hb⟩ := h3 current hcur
              refine ⟨ha, fun p hp => ?_⟩
              obtain ⟨pst, hpst, hup⟩ := hb p hp
              exact ⟨pst, hstepmem pst hpst, hup⟩
      -- normalized url of the new step is fresh
          have hfresh : normalizeUrl nav.url ∉ s.steps.map (fun st => normalizeUrl st.url) := by
            intro hmem
            obtain ⟨st, hst, heq⟩ := List.mem_map.mp hmem
            have := h2 st hst
            rw [heq] at this
            exact hvis (List.elem_iff.mpr this)
          have h1' : ((s.steps ++ [nav]).map (fun st => normalizeUrl st.url)).Nodup := by
            rw [List.map_append]
            simp only [List.map_cons, List.map_nil]
            rw [List.nodup_append]
            exact ⟨h1, List.nodup_singleton _, by
              intro a ha hb
              rcases List.mem_singleton.mp hb with rfl
              exact hfresh ha⟩
          have h2' : ∀ st ∈ s.steps ++ [nav],
              normalizeUrl st.url ∈ normalizeUrl current.url :: s.visited := by
            intro st hst
            rcases List.mem_append.mp hst with hst | hst
            · exact List.mem_cons_of_mem _ (h2 st hst)
            · rcases List.mem_singleton.mp hst with rfl
              exact List.mem_cons_self _ _
      -- the new queue satisfies the candidate invariant
          have hrest : ∀ c ∈ rest,
              (c.parentUrl = none → c.depth = 0) ∧
              (∀ p, c.parentUrl = some p →
                ∃ pst ∈ s.steps ++ [nav], pst.url = p ∧ c.depth = pst.depth + 1) := by
            intro c hc
            obtain ⟨ha, hb⟩ := h3 c (by rw [hq]; exact List.mem_cons_of_mem current hc)
            refine ⟨ha, fun p hp => ?_⟩
            obtain ⟨pst, hpst, hup⟩ := hb p hp
            exact ⟨pst, hstepmem pst hpst, hup⟩
          have h3' : ∀ c ∈ (if (match scrape current.url with
                  | some p => s.pages ++ [p]
                  | none => s.pages).length < maxPages then
                enqueueLinks (discover current.url) current
                  (normalizeUrl current.url :: s.visited) rest
              else rest),
              (c.parentUrl = none → c.depth = 0) ∧
              (∀ p, c.parentUrl = some p →
                ∃ pst ∈ s.steps ++ [nav], pst.url = p ∧ c.depth = pst.depth + 1) := by
            intro c hc
            split at hc
            · rcases enqueueLinks_mem (discover current.url) current
                (normalizeUrl current.url :: s.visited) rest c hc with hcr | hcp
              · exact hrest c hcr
              · constructor
                · intro hnone
                  rw [hcp.1] at hnone
                  exact absurd hnone (by simp)
                · intro p hp
                  rw [hcp.1] at hp
                  have hpu : p = current.url := by
                    injection hp with h
                    exact h.symm
                  refine ⟨nav, List.mem_append_right _ (List.mem_singleton.mpr rfl), ?_, ?_⟩
                  · rw [hpu]
                  · rw [hcp.2]
            · exact hrest c hc
          exact ⟨h1', h2', h3', h4'⟩
      · rw [if_neg hbudget]
        exact ⟨h1, h2, h3, h4⟩

theorem crawl_initial_inv (seedUrl : String) : CrawlInv
    { pages := [], steps := [], visited := [],
      queue := [{ url := normalizeUrl seedUrl, depth := 0, parentUrl := none, linkText := none }] } := by
  refine ⟨by simp, by simp, ?_, by simp⟩
  intro c hc
  rcases List.mem_singleton.mp hc with rfl
  exact ⟨fun _ => rfl, fun p hp => by simp at hp⟩

/-- C4: within a single crawl invocation no normalized URL appears in more
than one navigation step — for every scrape/discovery oracle, page budget,
fuel and seed, the recorded steps have pairwise distinct normalized URLs
(an already-visited candidate is dropped without a step, and links are
queued only when neither visited nor queued). -/
theorem claim_C4_no_duplicate_steps (scrape : String → Option ScrapedPage)
    (discover : String → List (String × String)) (seedUrl : String)
    (maxPages fuel : Nat) :
    (((crawlBenefitsPages scrape discover seedUrl maxPages fuel).navigationSteps).map
      (fun st => normalizeUrl st.url)).Nodup :=
  (crawlLoop_inv scrape discover maxPages fuel _ (crawl_initial_inv seedUrl)).1

/-- C5: every navigation step with no parent URL (the seed) has depth `0`,
and every step with a parent URL has depth exactly one more than the step
that visited its parent. -/
theorem claim_C5_depth_parent (scrape : String → Option ScrapedPage)
    (discover : String → List (String × String)) (seedUrl : String)
    (maxPages fuel : Nat) :
    ∀ st ∈ (crawlBenefitsPages scrape discover seedUrl maxPages fuel).navigationSteps,
      (st.parentUrl = none → st.depth = 0) ∧
      (∀ p, st.parentUrl = some p →
        ∃ pst ∈ (crawlBenefitsPages scrape discover seedUrl maxPages fuel).navigationSteps,
          pst.url = p ∧ st.depth = pst.depth + 1) :=
  (crawlLoop_inv scrape discover maxPages fuel _ (crawl_initial_inv seedUrl)).2.2.2

/-- Witness for C5: a two-page crawl in which the page discovered from the
seed is recorded at depth `1` with the seed step (depth `0`) as parent. -/
theorem claim_C5_depth_parent_witness :
    ∃ pst ∈ (crawlBenefitsPages demoScrape demoDiscover "https://ex.com/benefits" 3 5).navigationSteps,
      pst.url = "https://ex.com/benefits" ∧
      (1 : Nat) = pst.depth + 1 := by
  have h := claim_C5_depth_parent demoScrape demoDiscover "https://ex.com/benefits" 3 5
    { url := "https://ex.com/benefits/health", depth := 1,
      parentUrl := some "https://ex.com/benefits", linkText := some "Health", scraped := true }
    (by decide)
  exact h.2 "https://ex.com/benefits" rfl

theorem wordsOfGo_append_word (w : List Char) (hw : ∀ c ∈ w, c.isWhitespace = false) :
    ∀ (acc cs : List Char), wordsOfGo acc (w ++ cs) = wordsOfGo (w.reverse ++ acc) cs := by
  induction w with
  | nil => intro acc cs; simp
  | cons c t ih =>
    intro acc cs
    have hc : c.isWhitespace = false := hw c (List.mem_cons_self c t)
    rw [List.cons_append]
    show wordsOfGo acc (c :: (t ++ cs)) = _
    simp only [wordsOfGo, hc, Bool.false_eq_true, if_false]
    rw [ih (fun x hx => hw x (List.mem_cons_of_mem c hx)) (c :: acc) cs]
    congr 1
    simp

theorem wordsOfGo_single (w : List Char) (hne : w ≠ []) (hw : ∀ c ∈ w, c.isWhitespace = false) :
    wordsOfGo [] w = [w] := by
  have := wordsOfGo_append_word w hw [] []
  rw [List.append_nil] at this
  rw [this]
  have hrev : w.reverse ≠ [] := by
    intro hcon
    exact hne (by simpa using congrArg List.reverse hcon)
  simp only [wordsOfGo, List.append_nil]
  rw [if_neg (by simpa [List.isEmpty_iff] using hrev)]
  simp

theorem wordsOf_joinWords (ws : List (List Char))
    (h : ∀ w ∈ ws, w ≠ [] ∧ ∀ c ∈ w, c.isWhitespace = false) :
    wordsOf (joinWords ws) = ws := by
  induction ws with
  | nil => rfl
  | cons w rest ih =>
    obtain ⟨hw1, hw2⟩ := h w (List.mem_cons_self w rest)
    cases rest with
    | nil =>
      show wordsOf (joinWords [w]) = [w]
      rw [show joinWords [w] = w from rfl]
      exact wordsOfGo_single w hw1 hw2
    | cons r rs =>
      show wordsOf (joinWords (w :: r :: rs)) = w :: r :: rs
      rw [show joinWords (w :: r :: rs) = w ++ ' ' :: joinWords (r :: rs) from rfl]
      unfold wordsOf
      rw [wordsOfGo_append_word w hw2 [] (' ' :: joinWords (r :: rs))]
      rw [List.append_nil]
      have hsp : (' ').isWhitespace = true := by decide
      have hrev : w.reverse.isEmpty = false := by
        have : w.reverse ≠ [] := by
          intro hcon
          exact hw1 (by simpa using congrArg List.reverse hcon)
        simpa [List.isEmpty_iff] using this
      simp only [wordsOfGo, hsp, if_true, hrev, Bool.false_eq_true, if_false]
      rw [List.reverse_reverse]
      have ihr := ih (fun x hx => h x (List.mem_cons_of_mem w hx))
      unfold wordsOf at ihr
      rw [ihr]

theorem wordsOfGo_good : ∀ (cs acc : List Char), (∀ c ∈ acc, c.isWhitespace = false) →
    ∀ w ∈ wordsOfGo acc cs, w ≠ [] ∧ ∀ c ∈ w, c.isWhitespace = false := by
  intro cs
  induction cs with
  | nil =>
    intro acc hacc w hw
    simp only [wordsOfGo] at hw
    cases he : acc.isEmpty with
    | true => rw [he] at hw; simp at hw
    | false =>
      rw [he] at hw
      simp only [Bool.false_eq_true, if_false] at hw
      rcases List.mem_singleton.mp hw with rfl
      refine ⟨?_, fun c hc => hacc c (List.mem_reverse.mp hc)⟩
      intro hcon
      have : acc = [] := by simpa using congrArg List.reverse hcon
      rw [this] at he
      simp at he
  | cons c rest ih =>
    intro acc hacc w hw
    simp only [wordsOfGo] at hw
    cases hws : c.isWhitespace with
    | true =>
      rw [hws] at hw
      simp only [if_true] at hw
      cases he : acc.isEmpty with
      | true =>
        rw [he] at hw
        simp only [if_true] at hw
        exact ih [] (by simp) w hw
      | false =>
        rw [he] at hw
        simp only [Bool.false_eq_true, if_false] at hw
        rcases List.mem_cons.mp hw with rfl | hw
        · refine ⟨?_, fun x hx => hacc x (List.mem_reverse.mp hx)⟩
          intro hcon
          have : acc = [] := by simpa using congrArg List.reverse hcon
          rw [this] at he
          simp at he
        · exact ih [] (by simp) w hw
    | false =>
      rw [hws] at hw
      simp only [Bool.false_eq_true, if_false] at hw
      refine ih (c :: acc) ?_ w hw
      intro x hx
      rcases List.mem_cons.mp hx with rfl | hx
      · exact hws
      · exact hacc x hx

theorem wordsOf_good (cs : List Char) :
    ∀ w ∈ wordsOf cs, w ≠ [] ∧ ∀ c ∈ w, c.isWhitespace = false :=
  wordsOfGo_good cs [] (by simp)

theorem createChunksGo_closed (words : List (List Char)) (maxW : Nat) :
    ∀ (fuel i : Nat), words.length - i ≤ fuel →
      createChunksGo words maxW 175 fuel i =
        (List.range ((words.length - i + 174) / 175)).map
          (fun k => joinWords ((words.drop (i + 175 * k)).take maxW)) := by
  intro fuel
  induction fuel with
  | zero =>
    intro i hi
    have h0 : words.length - i = 0 := Nat.le_zero.mp hi
    rw [createChunksGo, h0]
    norm_num
  | succ fuel ih =>
    intro i hi
    rw [createChunksGo]
    by_cases hlt : i < words.length
    · rw [if_pos ⟨hlt, by norm_num⟩]
      rw [ih (i + 175) (by omega)]
      have hm : (words.length - i + 174) / 175 = (words.length - (i + 175) + 174) / 175 + 1 := by
        omega
      rw [hm, List.range_succ_eq_map, List.map_cons, List.map_map]
      congr 1
      apply List.map_congr_left
      intro k _
      simp only [Function.comp_apply]
      have harg : i + 175 * (k + 1) = i + 175 + 175 * k := by ring
      rw [harg]
    · rw [if_neg (fun hcon => hlt hcon.1)]
      have h0 : words.length - i = 0 := by omega
      rw [h0]
      norm_num

theorem isSubstantialChunk_window (ws : List (List Char))
    (hgood : ∀ w ∈ ws, w ≠ [] ∧ ∀ c ∈ w, c.isWhitespace = false) (j : Nat) :
    isSubstantialChunk (joinWords ((ws.drop j).take 250)) =
      decide (20 ≤ min 250 (ws.length - j)) := by
  have hsub : ∀ w ∈ (ws.drop j).take 250, w ≠ [] ∧ ∀ c ∈ w, c.isWhitespace = false :=
    fun w hw => hgood w (((List.take_sublist _ _).trans (List.drop_sublist _ _)).subset hw)
  rw [isSubstantialChunk, wordsOf_joinWords _ hsub]
  congr 1
  rw [List.length_take, List.length_drop]

theorem chunks_filter_closed (ws : List (List Char))
    (hgood : ∀ w ∈ ws, w ≠ [] ∧ ∀ c ∈ w, c.isWhitespace = false) :
    (createChunksGo ws 250 175 ws.length 0).filter isSubstantialChunk =
      (List.range (amendedChunkCount ws.length)).map
        (fun k => joinWords ((ws.drop (175 * k)).take 250)) := by
  rw [createChunksGo_closed ws 250 ws.length 0 (by omega)]
  simp only [Nat.zero_add, Nat.sub_zero]
  by_cases hW : ws.length = 0
  · rw [hW]
    norm_num [amendedChunkCount]
  · set W := ws.length with hWdef
    set m := (W + 174) / 175 with hmdef
    have hm1 : 1 ≤ m := by omega
    have hsplit : m = (m - 1) + 1 := by omega
    rw [hsplit, List.range_succ, List.map_append, List.filter_append]
    have hallp : ∀ x ∈ (List.range (m - 1)).map
        (fun k => joinWords ((ws.drop (175 * k)).take 250)), isSubstantialChunk x = true := by
      intro x hx
      obtain ⟨k, hk, rfl⟩ := List.mem_map.mp hx
      have hk' : k < m - 1 := List.mem_range.mp hk
      rw [isSubstantialChunk_window ws hgood (175 * k)]
      apply decide_eq_true
      omega
    rw [List.filter_eq_self.mpr hallp]
    simp only [List.map_cons, List.map_nil]
    rw [List.filter_cons]
    rw [isSubstantialChunk_window ws hgood (175 * (m - 1))]
    by_cases hlast : W % 175 = 0 ∨ 20 ≤ W % 175
    · have hcond : decide (20 ≤ min 250 (W - 175 * (m - 1))) = true := by
        apply decide_eq_true
        omega
      rw [hcond]
      have hE : amendedChunkCount W = m := by
        rw [amendedChunkCount]
        rw [if_neg (by omega)]
      rw [hE, hsplit, List.range_succ, List.map_append]
      simp
    · have hcond : decide (20 ≤ min 250 (W - 175 * (m - 1))) = false := by
        apply decide_eq_false
        omega
      rw [hcond]
      have hE : amendedChunkCount W = m - 1 := by
        rw [amendedChunkCount]
        rw [if_pos (by omega)]
      rw [hE]
      simp

/-- C1 (amended): `chunkPage` emits one chunk per window offset
`0, 175, 350, …` below the normalized word count `W`, keeping exactly
`amendedChunkCount W` of them (`ceil(W / 175)`, minus one when the final
window has between 1 and 19 words), and the `k`-th emitted chunk is the
window of up to 250 words starting at word offset `k * 175`. -/
theorem claim_C1_amended_chunk_layout (page : ScrapedPage) :
    ((chunkPage page).chunks.map (fun c => c.text)) =
      (List.range (amendedChunkCount (wordsOf (normalizeText page.content.data)).length)).map
        (fun k =>
          (⟨joinWords (((wordsOf (normalizeText page.content.data)).drop (175 * k)).take 250)⟩ :
            String)) := by
  show ((((createChunks (normalizeText page.content.data) MAX_CHUNK_WORDS
      CHUNK_OVERLAP_WORDS).filter isSubstantialChunk).map _).map _) = _
  rw [List.map_map]
  rw [show createChunks (normalizeText page.content.data) MAX_CHUNK_WORDS CHUNK_OVERLAP_WORDS =
      createChunksGo (wordsOf (normalizeText page.content.data)) 250 175
        (wordsOf (normalizeText page.content.data)).length 0 from rfl]
  rw [chunks_filter_closed _ (wordsOf_good _)]
  rw [List.map_map]
  rfl

set_option maxRecDepth 10000 in
/-- C1 counterexample: a page whose normalized content has exactly 20
words.  The code emits one chunk (a 20-word window passes the
`isSubstantialChunk` minimum), while the claimed count
`ceil(max(W - 75, 0) / 175)` evaluates to `0` for `W = 20` — the claimed
formula undercounts the final overlap-only window. -/
theorem claim_C1_counterexample :
    (wordsOf (normalizeText demoPage20.content.data)).length = 20 ∧
    (chunkPage demoPage20).chunks.length = 1 ∧
    claimedChunkCount 20 = 0 := by decide

theorem find_status_update (sess : List CrawlSessionRow) (sid : Nat) (status : String)
    (hmem : ∃ s ∈ sess, s.id = sid) :
    ((sess.map (fun s => if s.id = sid then { s with status := status } else s)).find?
      (fun s => s.id == sid)).map (fun s => s.status) = some status := by
  induction sess with
  | nil => simp at hmem
  | cons a t ih =>
    rw [List.map_cons]
    by_cases ha : a.id = sid
    · rw [if_pos ha]
      rw [List.find?_cons_of_pos _ (by simp [ha])]
      simp
    · rw [if_neg ha]
      rw [List.find?_cons_of_neg _ (by simp [ha])]
      apply ih
      rcases hmem with ⟨s, hs, hsid⟩
      rcases List.mem_cons.mp hs with rfl | hs
      · exact absurd hsid ha
      · exact ⟨s, hs, hsid⟩

theorem sessionStatus_updateSessionStatus (db : Db) (sid : Nat) (status : String)
    (hmem : ∃ s ∈ db.sessions, s.id = sid) :
    sessionStatus (updateSessionStatus db sid status) sid = some status :=
  find_status_update db.sessions sid status hmem

/-- C2 (amended): a re-index that fails to build a new corpus marks the
crawl session `failed` and surfaces the error when one occurred; with zero
pages crawled the previously indexed corpus is left untouched, but on an
embedding-service error the old pages and chunks have already been deleted
(the new pages are stored without chunks), so the old corpus does not stay
queryable. -/
theorem claim_C2_amended_reindex_failure
    (embedSvc : List String → Except String (List (List ℝ)))
    (db : Db) (steps : List NavStep) (res : CrawlResult) (e : String)
    (h1 : res.pages ≠ [])
    (h2 : embedSvc ((((chunkPages res.pages).map (fun cp => cp.chunks)).flatten).map
      (fun ch => ch.text)) = .error e) :
    ((reindexContent (.ok ⟨[], steps⟩) embedSvc db).2.pages = db.pages ∧
     (reindexContent (.ok ⟨[], steps⟩) embedSvc db).2.chunks = db.chunks ∧
     sessionStatus (reindexContent (.ok ⟨[], steps⟩) embedSvc db).2
       (db.sessions.length + 1) = some "failed") ∧
    ((reindexContent (.ok res) embedSvc db).1 = .error e ∧
     sessionStatus (reindexContent (.ok res) embedSvc db).2
       (db.sessions.length + 1) = some "failed" ∧
     (reindexContent (.ok res) embedSvc db).2.chunks = [] ∧
     (reindexContent (.ok res) embedSvc db).2.pages =
       res.pages.enum.map (fun p => { id := p.1 + 1, url := p.2.url, title := p.2.title : DbPage })) := by
  constructor
  · refine ⟨rfl, rfl, ?_⟩
    apply sessionStatus_updateSessionStatus
    exact ⟨_, List.mem_append_right _ (List.mem_singleton.mpr rfl), rfl⟩
  · have hlen : ¬(res.pages.length = 0) := fun hc => h1 (List.length_eq_zero.mp hc)
    unfold reindexContent
    simp only [hlen, if_false, h2]
    refine ⟨by trivial, ?_, by trivial, by trivial⟩
    show sessionStatus (updateSessionStatus _ _ "failed") _ = some "failed"
    apply sessionStatus_updateSessionStatus
    refine ⟨{ id := db.sessions.length + 1, status := "in_progress",
              pagesScraped := res.pages.length }, ?_, rfl⟩
    apply List.mem_map.mpr
    refine ⟨{ id := db.sessions.length + 1, status := "in_progress", pagesScraped := 0 }, ?_, ?_⟩
    · exact List.mem_append_right _ (List.mem_singleton.mpr rfl)
    · simp

set_option maxRecDepth 10000 in
/-- C2 counterexample: a crawl that returns one page followed by an
embedding-service error.  The session is marked `failed` and the error is
rethrown, but the previously indexed chunk corpus (non-empty in `oldDb`)
has been deleted before the embedding call: the resulting store has no
chunks at all. -/
theorem claim_C2_counterexample :
    (reindexContent ceCrawlOk ceEmbedErr oldDb).1 = .error "Embedding service unavailable" ∧
    ((reindexContent ceCrawlOk ceEmbedErr oldDb).2.sessions.map (fun s => s.status)) =
      ["failed"] ∧
    (reindexContent ceCrawlOk ceEmbedErr oldDb).2.chunks = [] ∧
    oldDb.chunks ≠ [] := by
  refine ⟨rfl, rfl, rfl, ?_⟩
  simp [oldDb]

/-- Witness for C2 (amended) at a concrete store, crawl result and failing
embedding service. -/
theorem claim_C2_amended_reindex_failure_witness :
    (reindexContent (.ok ⟨[], []⟩) ceEmbedErr oldDb).2.chunks = oldDb.chunks ∧
    (reindexContent (.ok (CrawlResult.mk [cePage] [])) ceEmbedErr oldDb).2.chunks = [] := by
  have h := claim_C2_amended_reindex_failure ceEmbedErr oldDb [] (CrawlResult.mk [cePage] [])
    "Embedding service unavailable" (by simp) rfl
  exact ⟨h.1.2.1, h.2.2.2.1⟩

theorem sum_zipWith_replicate_zero : ∀ (n : Nat) (l : List ℝ),
    (List.zipWith (· * ·) (List.replicate n (0:ℝ)) l).sum = 0 := by
  intro n
  induction n with
  | zero => intro l; simp
  | succ n ih =>
    intro l
    cases l with
    | nil => simp
    | cons x t =>
      rw [List.replicate_succ, List.zipWith_cons_cons, List.sum_cons, ih t]
      simp

theorem sqrt_four : Real.sqrt 4 = 2 := by
  rw [show (4:ℝ) = 2 ^ 2 by norm_num]
  exact Real.sqrt_sq (by norm_num)

theorem cosineSimilarity_ceVecZero : cosineSimilarity ceVecZero ceVecB = 0 := by
  have hlen : ¬(ceVecZero.length ≠ ceVecB.length) := by
    rw [ceVecZero, ceVecB]
    simp only [List.length_replicate, List.length_cons]
    norm_num
  have hA : Real.sqrt ((ceVecZero.map fun x => x * x).sum) = 0 := by
    rw [show ((ceVecZero.map fun x => x * x).sum) = 0 by
      rw [ceVecZero, List.map_replicate, List.sum_replicate]
      norm_num]
    exact Real.sqrt_zero
  simp only [cosineSimilarity]
  rw [if_neg hlen, if_pos (Or.inl hA)]

theorem cosineSimilarity_ceVecA : cosineSimilarity ceVecA ceVecB = 1 / 2 := by
  have hlen : ¬(ceVecA.length ≠ ceVecB.length) := by
    rw [ceVecA, ceVecB]
    simp only [List.length_replicate, List.length_cons]
    norm_num
  have hdot : (List.zipWith (· * ·) ceVecA ceVecB).sum = 2 := by
    rw [ceVecA, ceVecB, List.zipWith_cons_cons, List.sum_cons,
      sum_zipWith_replicate_zero]
    norm_num
  have hsqA : ((ceVecA.map fun x => x * x).sum) = 4 := by
    rw [ceVecA]
    simp only [List.map_cons, List.map_replicate, List.sum_cons, List.sum_replicate]
    norm_num
  have hsqB : ((ceVecB.map fun x => x * x).sum) = 4 := by
    rw [ceVecB]
    simp only [List.map_cons, List.map_replicate, List.sum_cons, List.sum_replicate]
    norm_num
  have hA : Real.sqrt ((ceVecA.map fun x => x * x).sum) = 2 := by rw [hsqA]; exact sqrt_four
  have hB : Real.sqrt ((ceVecB.map fun x => x * x).sum) = 2 := by rw [hsqB]; exact sqrt_four
  simp only [cosineSimilarity]
  rw [if_neg hlen, hA, hB, hdot]
  rw [if_neg (by norm_num)]
  norm_num

theorem validateEmbedding_ceVecB : validateEmbedding ceVecB = true := by
  rw [validateEmbedding, ceVecB, EMBEDDING_DIMENSIONS]
  simp only [List.length_replicate, List.length_cons]
  norm_num

theorem chunkSimilarity_ceVecZero : chunkSimilarity ceVecZero ceChunkRow = 0 := by
  rw [show chunkSimilarity ceVecZero ceChunkRow =
      if validateEmbedding ceVecB then cosineSimilarity ceVecZero ceVecB else 0 from rfl]
  rw [if_pos validateEmbedding_ceVecB]
  exact cosineSimilarity_ceVecZero

theorem chunkSimilarity_ceVecA : chunkSimilarity ceVecA ceChunkRow = 1 / 2 := by
  rw [show chunkSimilarity ceVecA ceChunkRow =
      if validateEmbedding ceVecB then cosineSimilarity ceVecA ceVecB else 0 from rfl]
  rw [if_pos validateEmbedding_ceVecB]
  exact cosineSimilarity_ceVecA

theorem topResults_ceChunkRow (q : List ℝ) :
    topResults q [ceChunkRow] 5 =
      [{ id := 1, text := "chunk text", category := "general",
         sourceUrl := "https://x.com/benefits/health",
         similarity := chunkSimilarity q ceChunkRow, pageTitle := "Page" }] := by
  have hfetch : fetchEmbedded [ceChunkRow] = [ceChunkRow] := by
    simp [fetchEmbedded, ceChunkRow]
  rw [topResults, sortBySimilarityDesc, resultsWithSimilarity, hfetch]
  simp [ceChunkRow]

theorem searchFallback_ceVecZero : searchFallback ceVecZero [ceChunkRow] 5 := by
  right
  intro r hr
  rw [topResults_ceChunkRow ceVecZero] at hr
  rcases List.mem_singleton.mp hr with rfl
  exact chunkSimilarity_ceVecZero

theorem not_searchFallback_ceVecA : ¬ searchFallback ceVecA [ceChunkRow] 5 := by
  intro h
  rcases h with h | h
  · rw [topResults_ceChunkRow ceVecA] at h
    simp at h
  · have hz := h _ (by rw [topResults_ceChunkRow ceVecA]; exact List.mem_singleton.mpr rfl)
    dsimp only at hz
    rw [chunkSimilarity_ceVecA] at hz
    norm_num at hz

theorem fallbackResults_ceChunkRow :
    fallbackResults [ceChunkRow] 5 =
      [{ id := 1, text := "chunk text", category := "general",
         sourceUrl := "https://x.com/benefits/health",
         similarity := (0.5 : ℝ), pageTitle := "Page" }] := by
  have hfetch : fetchEmbedded [ceChunkRow] = [ceChunkRow] := by
    simp [fetchEmbedded, ceChunkRow]
  rw [fallbackResults, hfetch]
  simp [ceChunkRow]

theorem avg_singleton (r : SearchResult) :
    calculateAverageSearchSimilarity [r] = r.similarity := by
  rw [calculateAverageSearchSimilarity]
  rw [if_neg (by simp)]
  simp

/-- C3 counterexample: over the same one-chunk corpus, the all-zero query
embedding triggers the degenerate fallback (confidence `0.5` from the
placeholder similarity), while a query whose cosine similarity against the
stored chunk is exactly `0.5` is a genuine non-fallback match with the
same confidence `0.5` — so the caller cannot distinguish the
no-semantic-match fallback from a genuine match by the confidence value
alone. -/
theorem claim_C3_counterexample :
    searchFallback ceVecZero [ceChunkRow] 5 ∧
    ¬ searchFallback ceVecA [ceChunkRow] 5 ∧
    calculateAverageSearchSimilarity (searchAfterEmbed ceVecZero [ceChunkRow] 5) =
      calculateAverageSearchSimilarity (searchAfterEmbed ceVecA [ceChunkRow] 5) := by
  refine ⟨searchFallback_ceVecZero, not_searchFallback_ceVecA, ?_⟩
  have h1 : searchAfterEmbed ceVecZero [ceChunkRow] 5 = fallbackResults [ceChunkRow] 5 := by
    rw [searchAfterEmbed, if_pos searchFallback_ceVecZero]
  have h2 : searchAfterEmbed ceVecA [ceChunkRow] 5 = topResults ceVecA [ceChunkRow] 5 := by
    rw [searchAfterEmbed, if_neg not_searchFallback_ceVecA]
  rw [h1, h2, fallbackResults_ceChunkRow, topResults_ceChunkRow ceVecA,
    avg_singleton, avg_singleton]
  dsimp only
  rw [chunkSimilarity_ceVecA]
  norm_num

/-- C3 (amended): when the top-K set is empty or uniformly zero-similarity,
`searchChunks` substitutes an explicit bounded fallback — at most `topK`
results drawn from the fetched corpus, each at the fixed placeholder
similarity `0.5`.  (The distinguishability part of the claim fails; see the
counterexample.) -/
theorem claim_C3_amended_bounded_fallback (q : List ℝ) (chunks : List DbChunkRow)
    (topK : Nat) (h : searchFallback q chunks topK) :
    searchAfterEmbed q chunks topK = fallbackResults chunks topK ∧
    (searchAfterEmbed q chunks topK).length ≤ topK ∧
    ∀ r ∈ searchAfterEmbed q chunks topK, r.similarity = (0.5 : ℝ) ∧
      ∃ row ∈ chunks, r.id = row.id ∧ r.text = row.text := by
  have he : searchAfterEmbed q chunks topK = fallbackResults chunks topK := by
    rw [searchAfterEmbed, if_pos h]
  refine ⟨he, ?_, ?_⟩
  · rw [he, fallbackResults]
    exact List.length_take_le _ _
  · intro r hr
    rw [he, fallbackResults] at hr
    obtain ⟨row, hrow, rfl⟩ := List.mem_map.mp (List.mem_of_mem_take hr)
    exact ⟨rfl, row, List.mem_of_mem_filter hrow, rfl, rfl⟩

/-- Witness for C3 (amended) at the all-zero query over the one-chunk
corpus. -/
theorem claim_C3_amended_bounded_fallback_witness :
    searchAfterEmbed ceVecZero [ceChunkRow] 5 = fallbackResults [ceChunkRow] 5 ∧
    (searchAfterEmbed ceVecZero [ceChunkRow] 5).length ≤ 5 :=
  ⟨(claim_C3_amended_bounded_fallback ceVecZero [ceChunkRow] 5 searchFallback_ceVecZero).1,
   (claim_C3_amended_bounded_fallback ceVecZero [ceChunkRow] 5 searchFallback_ceVecZero).2.1⟩

theorem dropWhile_head_false (p : Char → Bool) :
    ∀ (l : List Char) (c : Char) (t : List Char), l.dropWhile p = c :: t → p c = false := by
  intro l
  induction l with
  | nil => intro c t h; cases h
  | cons a l' ih =>
    intro c t h
    rw [List.dropWhile_cons] at h
    by_cases ha : p a
    · rw [if_pos ha] at h
      exact ih c t h
    · rw [if_neg ha] at h
      injection h with h1 _
      rw [← h1]
      exact Bool.of_not_eq_true ha

theorem parseUrl_spec (cs : List Char) (u : UrlObj) (h : parseUrl cs = some u) :
    u.scheme ≠ [] ∧ u.scheme.all isSchemeChar = true ∧ u.host ≠ [] ∧
    u.host.all isHostChar = true ∧ u.pathname.all isPathChar = true ∧
    (u.pathname = [] ∨ ∃ t, u.pathname = '/' :: t) := by
  unfold parseUrl at h
  split at h
  · by_cases h1 : (cs.takeWhile (fun c => decide ¬(c = ':'))).isEmpty ||
        !(cs.takeWhile (fun c => decide ¬(c = ':'))).all isSchemeChar
    · rw [if_pos h1] at h
      cases h
    · rw [if_neg h1] at h
      rename_i rest heq
      by_cases h2 : (rest.takeWhile isHostChar).isEmpty
      · rw [if_pos h2] at h
        cases h
      · rw [if_neg h2] at h
        injection h with h
        subst h
        simp only [Bool.or_eq_true, Bool.not_eq_true', List.isEmpty_iff] at h1
        push_neg at h1
        refine ⟨h1.1, ?_, ?_, ?_, ?_, ?_⟩
        · cases hall : (cs.takeWhile (fun c => decide ¬(c = ':'))).all isSchemeChar
          · exact absurd hall h1.2
          · rfl
        · simpa [List.isEmpty_iff] using h2
        · exact List.all_eq_true.mpr (fun c hc => List.mem_takeWhile_imp hc)
        · exact List.all_eq_true.mpr (fun c hc => List.mem_takeWhile_imp hc)
        · cases hpt : rest.dropWhile isHostChar with
          | nil => left; rfl
          | cons c t =>
            have hc := dropWhile_head_false isHostChar rest c t hpt
            simp only [isHostChar, Bool.not_eq_false', Bool.or_eq_true, decide_eq_true_eq] at hc
            dsimp only
            rcases hc with (hc | hc) | hc
            · subst hc
              right
              exact ⟨t.takeWhile isPathChar, by rw [List.takeWhile_cons, if_pos (by decide)]⟩
            · subst hc
              left
              rw [List.takeWhile_cons, if_neg (by decide)]
            · subst hc
              left
              rw [List.takeWhile_cons, if_neg (by decide)]
  · cases h

theorem parseUrl_roundTrip (scheme host path : List Char)
    (hs1 : scheme ≠ []) (hs2 : scheme.all isSchemeChar = true)
    (hh1 : host ≠ []) (hh2 : host.all isHostChar = true)
    (hp1 : path.all isPathChar = true)
    (hp2 : path = [] ∨ ∃ t, path = '/' :: t) :
    parseUrl (scheme ++ ':' :: '/' :: '/' :: (host ++ path)) =
      some ⟨scheme, host, path, [], []⟩ := by
  have hspan := spanAppend (fun c => decide ¬(c = ':')) scheme
    (':' :: '/' :: '/' :: (host ++ path))
    (fun c hc => by
      have hsc := List.all_eq_true.mp hs2 c hc
      apply decide_eq_true
      intro hcon
      rw [hcon] at hsc
      exact absurd hsc (by decide))
    (fun c t hct => by
      injection hct with h1 _
      rw [← h1]
      decide)
  have hspan2 := spanAppend isHostChar host path
    (fun c hc => List.all_eq_true.mp hh2 c hc)
    (fun c t hct => by
      rcases hp2 with hp | ⟨t', hp⟩
      · rw [hp] at hct; cases hct
      · rw [hp] at hct
        injection hct with h1 _
        rw [← h1]
        decide)
  have hspan3 : path.takeWhile isPathChar = path ∧ path.dropWhile isPathChar = [] := by
    have := spanAppend isPathChar path []
      (fun c hc => List.all_eq_true.mp hp1 c hc)
      (fun c t hct => by cases hct)
    simpa using this
  have hsE : scheme.isEmpty = false := by simpa [List.isEmpty_iff] using hs1
  have hhE : host.isEmpty = false := by simpa [List.isEmpty_iff] using hh1
  unfold parseUrl
  simp only [hspan.1, hspan.2]
  simp only [hspan2.1, hspan2.2, hspan3.1, hspan3.2, hsE, hs2, hhE,
    Bool.not_true, Bool.or_false, if_false, List.takeWhile_nil, List.dropWhile_nil]
  simp

theorem serializeUrl_cleared (S H P0 : List Char) :
    serializeUrl { scheme := S, host := H, pathname := P0, search := [], hash := [] } =
      (S ++ ':' :: '/' :: '/' :: H) ++ (if P0.isEmpty then ['/'] else P0) := by
  rw [serializeUrl]
  simp

theorem normalizeUrl_parsed (u : String) (S H P0 SS HH : List Char)
    (hp : parseUrl u.data = some ⟨S, H, P0, SS, HH⟩) :
    normalizeUrl u =
      ⟨stripTrailingSlash ((S ++ ':' :: '/' :: '/' :: H) ++
        (if P0.isEmpty then ['/'] else P0))⟩ := by
  rw [normalizeUrl, hp]
  dsimp only
  rw [serializeUrl_cleared S H P0]

theorem normalizeUrl_fixed (S H P : List Char)
    (hs1 : S ≠ []) (hs2 : S.all isSchemeChar = true)
    (hh1 : H ≠ []) (hh2 : H.all isHostChar = true)
    (hp1 : P.all isPathChar = true)
    (hp2 : ∃ t, P = '/' :: t)
    (hlast : P.getLast? ≠ some '/') :
    normalizeUrl ⟨(S ++ ':' :: '/' :: '/' :: H) ++ P⟩ =
      ⟨(S ++ ':' :: '/' :: '/' :: H) ++ P⟩ := by
  have hPne : P ≠ [] := by rcases hp2 with ⟨t, rfl⟩; simp
  have hshape : (S ++ ':' :: '/' :: '/' :: H) ++ P = S ++ ':' :: '/' :: '/' :: (H ++ P) := by
    simp
  have hparse : parseUrl (⟨(S ++ ':' :: '/' :: '/' :: H) ++ P⟩ : String).data =
      some ⟨S, H, P, [], []⟩ := by
    show parseUrl ((S ++ ':' :: '/' :: '/' :: H) ++ P) = _
    rw [hshape]
    exact parseUrl_roundTrip S H P hs1 hs2 hh1 hh2 hp1 (Or.inr hp2)
  rw [normalizeUrl_parsed _ S H P [] [] hparse]
  have hPE : P.isEmpty = false := by simpa [List.isEmpty_iff] using hPne
  rw [if_neg (by simp [hPE])]
  rw [stripTrailingSlash, if_neg (by
    rw [List.getLast?_append_of_ne_nil _ hPne]
    exact hlast)]

theorem normalizeUrl_fixed_hostOnly (S H : List Char)
    (hs1 : S ≠ []) (hs2 : S.all isSchemeChar = true)
    (hh1 : H ≠ []) (hh2 : H.all isHostChar = true) :
    normalizeUrl ⟨S ++ ':' :: '/' :: '/' :: H⟩ = ⟨S ++ ':' :: '/' :: '/' :: H⟩ := by
  have hparse : parseUrl (⟨S ++ ':' :: '/' :: '/' :: H⟩ : String).data =
      some ⟨S, H, [], [], []⟩ := by
    show parseUrl (S ++ ':' :: '/' :: '/' :: H) = _
    rw [show S ++ ':' :: '/' :: '/' :: H = S ++ ':' :: '/' :: '/' :: (H ++ []) by simp]
    exact parseUrl_roundTrip S H [] hs1 hs2 hh1 hh2 (by simp) (Or.inl rfl)
  rw [normalizeUrl_parsed _ S H [] [] [] hparse]
  rw [if_pos (by simp)]
  rw [stripTrailingSlash, if_pos (by
    rw [List.getLast?_append_of_ne_nil _ (by simp)]
    rfl)]
  rw [List.dropLast_append_of_ne_nil _ (by simp)]
  simp

/-- C9 (amended): `normalizeUrl` is idempotent on every string that does
not parse, and on every URL whose normalized form does not end in `/` —
equivalently, except when the parsed path ends in a double slash, where a
second application strips one more trailing slash. -/
theorem claim_C9_amended_idempotence (u : String)
    (h : parseUrl u.data = none ∨ (normalizeUrl u).data.getLast? ≠ some '/') :
    normalizeUrl (normalizeUrl u) = normalizeUrl u := by
  cases hp : parseUrl u.data with
  | none =>
    have h1 : normalizeUrl u = u := by rw [normalizeUrl, hp]
    rw [h1, h1]
  | some obj =>
    obtain ⟨S, H, P0, SS, HH⟩ := obj
    obtain ⟨hs1, hs2, hh1, hh2, hp1, hp2⟩ := parseUrl_spec u.data _ hp
    dsimp only at hs1 hs2 hh1 hh2 hp1 hp2
    rcases hp2 with hP0nil | ⟨t0, hP0⟩
    · -- empty path: normalizeUrl u = scheme://host, a fixed point
      subst hP0nil
      have hnu : normalizeUrl u = ⟨S ++ ':' :: '/' :: '/' :: H⟩ := by
        rw [normalizeUrl_parsed u S H [] SS HH hp]
        rw [if_pos (by simp)]
        rw [stripTrailingSlash, if_pos (by
          rw [List.getLast?_append_of_ne_nil _ (by simp)]
          rfl)]
        rw [List.dropLast_append_of_ne_nil _ (by simp)]
        simp
      rw [hnu]
      exact normalizeUrl_fixed_hostOnly S H hs1 hs2 hh1 hh2
    · subst hP0
      have hPE : (('/' :: t0 : List Char).isEmpty) = false := rfl
      by_cases hlastP : ('/' :: t0 : List Char).getLast? = some '/'
      · -- the serialized form ends in a slash that gets stripped
        have hnu : normalizeUrl u =
            ⟨(S ++ ':' :: '/' :: '/' :: H) ++ ('/' :: t0).dropLast⟩ := by
          rw [normalizeUrl_parsed u S H ('/' :: t0) SS HH hp]
          rw [if_neg (by simp [hPE])]
          rw [stripTrailingSlash, if_pos (by
            rw [List.getLast?_append_of_ne_nil _ (by simp)]
            exact hlastP)]
          rw [List.dropLast_append_of_ne_nil _ (by simp)]
        cases ht0 : t0 with
        | nil =>
          -- path was exactly "/": normalizeUrl u = scheme://host
          subst ht0
          rw [hnu]
          rw [show (('/' : Char) :: ([] : List Char)).dropLast = [] from rfl, List.append_nil]
          exact normalizeUrl_fixed_hostOnly S H hs1 hs2 hh1 hh2
        | cons a t1 =>
          -- path ends in '/' but has more than one character: here the
          -- hypothesis is needed, since the stripped form still ends in
          -- '/' exactly when the path ended in a double slash
          have ht0ne : t0 ≠ [] := by rw [ht0]; simp
          have hdl : (('/' : Char) :: t0).dropLast = '/' :: t0.dropLast :=
            List.dropLast_cons_of_ne_nil ht0ne
          rw [hdl] at hnu
          rcases h with h | h
          · rw [hp] at h; cases h
          · rw [hnu] at h
            have hlast' : (('/' : Char) :: t0.dropLast).getLast? ≠ some '/' := by
              intro hcon
              apply h
              show ((S ++ ':' :: '/' :: '/' :: H) ++ ('/' :: t0.dropLast)).getLast? = some '/'
              rw [List.getLast?_append_of_ne_nil _ (by simp)]
              exact hcon
            rw [hnu]
            apply normalizeUrl_fixed S H ('/' :: t0.dropLast) hs1 hs2 hh1 hh2
            · apply List.all_eq_true.mpr
              intro c hc
              rcases List.mem_cons.mp hc with rfl | hc
              · decide
              · exact List.all_eq_true.mp hp1 c
                  (List.mem_cons_of_mem _ ((List.dropLast_sublist t0).subset hc))
            · exact ⟨t0.dropLast, rfl⟩
            · exact hlast'
      · -- the serialized form does not end in '/': already a fixed point
        have hnu : normalizeUrl u = ⟨(S ++ ':' :: '/' :: '/' :: H) ++ ('/' :: t0)⟩ := by
          rw [normalizeUrl_parsed u S H ('/' :: t0) SS HH hp]
          rw [if_neg (by simp [hPE])]
          rw [stripTrailingSlash, if_neg (by
            rw [List.getLast?_append_of_ne_nil _ (by simp)]
            exact hlastP)]
        rw [hnu]
        exact normalizeUrl_fixed S H ('/' :: t0) hs1 hs2 hh1 hh2 hp1 ⟨t0, rfl⟩ hlastP

/-- C9 counterexample: `normalizeUrl` strips only one trailing slash, so on
`https://example.com//` (whose WHATWG serialization keeps the empty path
segment) one application yields `https://example.com/` while a second
application yields `https://example.com` — idempotence fails. -/
theorem claim_C9_counterexample :
    normalizeUrl "https://example.com//" = "https://example.com/" ∧
    normalizeUrl (normalizeUrl "https://example.com//") ≠
      normalizeUrl "https://example.com//" := by
  constructor
  · decide
  · decide

/-- Witness for C9 (amended) at a URL whose normalized form does not end
in a slash. -/
theorem claim_C9_amended_idempotence_witness :
    normalizeUrl (normalizeUrl "https://example.com/a") =
      normalizeUrl "https://example.com/a" :=
  claim_C9_amended_idempotence "https://example.com/a" (Or.inr (by decide))
